import Mathlib

/-!
Verification of the TaskManager repository (`src/task_manager.py`) against its
natural-language specification.

The file gives a shallow embedding of the core logic of `task_manager.py`:
the `TimeBlock` interval primitive, the busy-time model and its toggle
operation, the scheduling-context builder (goal focus grouping), the schedule
parser and its sort, the conflict detector, the schedule-generation control
flow, and the reminder loop's fire-time computation and deduplicated delivery.

Modelling conventions:
* Python strings are Lean `String`s; Python's codepoint-wise string
  comparison is modelled on `String.data` character lists.
* `datetime.strptime(s, "%H:%M")` is modelled by `parseTime`, returning
  minutes since midnight, or `none` where CPython raises `ValueError`
  (the hour must be 0..23 and minute 0..59, each written with 1 or 2 digits).
* Naive `datetime` values in the reminder loop are modelled as seconds since
  an epoch that falls on a Monday 00:00, so `dt.weekday() = dt / 86400 % 7`
  and `timedelta` arithmetic is plain `Nat` arithmetic.
* Python exceptions are modelled with `Option`/`Except`: a computation that
  raises is `none` / `.error`.
* Python dicts appearing in the code are modelled as association lists in
  insertion order (`self.busy_slots` is keyed by exactly the seven canonical
  weekdays, in order, from `__init__`).
* Python's stable `sorted` is modelled by `List.insertionSort`, which is
  stable and sorts with respect to the same non-strict key order.
* `Task.duration_hours` (a Python float never computed with in the embedded
  code, only carried around) is modelled as `Rat`.
-/

namespace TaskManager

/-- `WEEKDAYS` from `task_manager.py`: the canonical seven-day list. -/
def WEEKDAYS : List String :=
  ["Monday", "Tuesday", "Wednesday", "Thursday", "Friday", "Saturday", "Sunday"]

/-- The `Task` dataclass. -/
structure Task where
  name : String
  duration_hours : Rat
  difficulty : String
  notes : String := ""
  goal : Option String := none
deriving DecidableEq

/-- The `Goal` dataclass. -/
structure Goal where
  name : String
  difficulty : String
  notes : String := ""
deriving DecidableEq

/-- The `TimeBlock` dataclass. -/
structure TimeBlock where
  title : String
  day : String
  start_time : String
  end_time : String
  details : String := ""
deriving DecidableEq

/-- Value of a decimal digit character, `none` otherwise. -/
def digitVal (c : Char) : Option Nat :=
  if c.isDigit then some (c.toNat - 48) else none

/-- Assemble an hour/minute pair into minutes since midnight, failing exactly
where `datetime.strptime` rejects the field values (hour > 23, minute > 59). -/
def mkTime (h m : Nat) : Option Nat :=
  if h ≤ 23 ∧ m ≤ 59 then some (60 * h + m) else none

/-- `datetime.strptime(s, "%H:%M")` on the character list of `s`: one or two
digits, a colon, one or two digits; returns minutes since midnight. -/
def parseTimeChars : List Char → Option Nat
  | [h1, ':', m1] => do mkTime (← digitVal h1) (← digitVal m1)
  | [h1, h2, ':', m1] => do mkTime (10 * (← digitVal h1) + (← digitVal h2)) (← digitVal m1)
  | [h1, ':', m1, m2] => do mkTime (← digitVal h1) (10 * (← digitVal m1) + (← digitVal m2))
  | [h1, h2, ':', m1, m2] => do
    mkTime (10 * (← digitVal h1) + (← digitVal h2)) (10 * (← digitVal m1) + (← digitVal m2))
  | _ => none

/-- `datetime.strptime(s, "%H:%M")`, as minutes since midnight (`none` models
a raised `ValueError`). -/
def parseTime (s : String) : Option Nat := parseTimeChars s.data

/-- `TimeBlock.overlaps`.  Python returns `False` before parsing anything when
the days differ; otherwise it parses all four times (raising on bad input,
modelled by `none`) and intersects the half-open intervals strictly. -/
def TimeBlock.overlaps (a b : TimeBlock) : Option Bool :=
  if a.day ≠ b.day then some false
  else do
    let sa ← parseTime a.start_time
    let ea ← parseTime a.end_time
    let sb ← parseTime b.start_time
    let eb ← parseTime b.end_time
    some (decide (sa < eb) && decide (sb < ea))

/-- `self.busy_slots`: for each weekday (in canonical order), the list of
`(hour, duration)` pairs, in insertion order. -/
abbrev BusyDict := List (String × List (Nat × Nat))

/-- Python `f"{n:02d}"`. -/
def fmt2 (n : Nat) : String :=
  if n < 10 then "0" ++ toString n else toString n

/-- One `{"start": .., "end": .., "title": "Busy"}` record of the busy
context. -/
structure BusyEntry where
  start : String
  end_ : String
  title : String
deriving DecidableEq

/-- `TaskManagerApp._build_busy_context`: per weekday, the stored
`(hour, duration)` pairs rendered as `HH:MM` interval records. -/
def buildBusyContext (busy : BusyDict) : List (String × List BusyEntry) :=
  busy.map (fun p =>
    (p.1, p.2.map (fun q => ⟨fmt2 q.1 ++ ":00", fmt2 (q.1 + q.2) ++ ":00", "Busy"⟩)))

/-- The busy `TimeBlock` list materialized inside
`TaskManagerApp._find_conflicts`. -/
def busyBlocks (busy : BusyDict) : List TimeBlock :=
  (buildBusyContext busy).flatMap (fun p => p.2.map (fun s => ⟨"Busy", p.1, s.start, s.end_, ""⟩))

/-- The conflict message format of `TaskManagerApp._find_conflicts`. -/
def conflictMsg (b : TimeBlock) : String :=
  b.title ++ " on " ++ b.day ++ " " ++ b.start_time ++ "-" ++ b.end_time ++ " overlaps busy time."

/-- Inner loop of `_find_conflicts`: one generated block against every busy
block, in order; `none` models an escaped `ValueError` from `overlaps`. -/
def conflictsOne (b : TimeBlock) : List TimeBlock → Option (List String)
  | [] => some []
  | c :: cs => do
    let o ← TimeBlock.overlaps b c
    let rest ← conflictsOne b cs
    some (if o then conflictMsg b :: rest else rest)

/-- Outer loop of `_find_conflicts` over the generated blocks. -/
def findConflictsAux (busyBs : List TimeBlock) : List TimeBlock → Option (List String)
  | [] => some []
  | b :: bs => do
    let m ← conflictsOne b busyBs
    let rest ← findConflictsAux busyBs bs
    some (m ++ rest)

/-- `TaskManagerApp._find_conflicts`. -/
def findConflicts (blocks : List TimeBlock) (busy : BusyDict) : Option (List String) :=
  findConflictsAux (busyBlocks busy) blocks

/-- The per-day body of `TaskManagerApp.toggle_busy`: remove every pair at
`hour` if one is present, otherwise append `(hour, 1)`. -/
def toggleList (l : List (Nat × Nat)) (hour : Nat) : List (Nat × Nat) :=
  if l.any (fun q => q.1 == hour) then l.filter (fun q => q.1 != hour)
  else l ++ [(hour, 1)]

/-- `TaskManagerApp.toggle_busy` on the busy-slot dictionary (the button
recolouring is presentation and not modelled). -/
def toggle_busy (busy : BusyDict) (day : String) (hour : Nat) : BusyDict :=
  busy.map (fun p => if p.1 == day then (p.1, toggleList p.2 hour) else p)

/-- One raw entry of the external response; a missing dict key is `none`. -/
structure RawEntry where
  title : Option String := none
  start : Option String := none
  end_ : Option String := none
  details : Option String := none
deriving DecidableEq

/-- The `days` mapping of the raw response, in insertion order. -/
abbrev RawDays := List (String × List RawEntry)

/-- The entry body of `TaskManagerApp._parse_schedule`: a `KeyError` on
`title`, `start` or `end` skips the entry; `details` defaults to `""`. -/
def parseEntry (day : String) (e : RawEntry) : Option TimeBlock :=
  match e.title, e.start, e.end_ with
  | some t, some s, some en => some ⟨t, day, s, en, e.details.getD ""⟩
  | _, _, _ => none

/-- The inner loop of `_parse_schedule` over one day's entries. -/
def parseDay (day : String) : List RawEntry → List TimeBlock
  | [] => []
  | e :: es =>
    match parseEntry day e with
    | some b => b :: parseDay day es
    | none => parseDay day es

/-- The outer loop of `_parse_schedule`: weekday keys outside `WEEKDAYS` are
skipped. -/
def collectBlocks : RawDays → List TimeBlock
  | [] => []
  | p :: rest => (if p.1 ∈ WEEKDAYS then parseDay p.1 p.2 else []) ++ collectBlocks rest

/-- Python `list.index` (total here; only applied to present days). -/
def idxIn : List String → String → Nat
  | [], _ => 0
  | x :: xs, d => if x == d then 0 else idxIn xs d + 1

/-- `WEEKDAYS.index(b.day)`. -/
def dayIndex (d : String) : Nat := idxIn WEEKDAYS d

/-- Python's codepoint-wise lexicographic `<` on strings, on character
lists. -/
def charListLt : List Char → List Char → Bool
  | _, [] => false
  | [], _ :: _ => true
  | a :: as, b :: bs =>
    decide (a.toNat < b.toNat) || (decide (a.toNat = b.toNat) && charListLt as bs)

/-- The strict order underlying the sort key
`(WEEKDAYS.index(b.day), b.start_time)` of `_parse_schedule`. -/
def blockLt (a b : TimeBlock) : Bool :=
  decide (dayIndex a.day < dayIndex b.day) ||
    (decide (dayIndex a.day = dayIndex b.day) && charListLt a.start_time.data b.start_time.data)

/-- The non-strict key order used to model Python's stable `sorted`. -/
def keyLE (a b : TimeBlock) : Prop := blockLt b a = false

instance : DecidableRel keyLE := fun a b => instDecidableEqBool (blockLt b a) false

/-- `sorted(blocks, key=lambda b: (WEEKDAYS.index(b.day), b.start_time))`:
a stable sort with respect to `keyLE`. -/
def sortBlocks (l : List TimeBlock) : List TimeBlock := List.insertionSort keyLE l

/-- `TaskManagerApp._parse_schedule`. -/
def parseSchedule (days : RawDays) : List TimeBlock :=
  sortBlocks (collectBlocks days)

/-- The task record placed into `tasks_by_goal` by
`_build_schedule_context` (note: it has no `goal` field). -/
structure TaskDict where
  name : String
  duration_hours : Rat
  difficulty : String
  notes : String
deriving DecidableEq

/-- The dict literal appended in `_build_schedule_context`. -/
def taskDict (t : Task) : TaskDict := ⟨t.name, t.duration_hours, t.difficulty, t.notes⟩

/-- `task.goal if task.goal else "Unaligned"`: Python truthiness sends both
`None` and the empty string to `"Unaligned"`. -/
def taskKey (t : Task) : String :=
  match t.goal with
  | none => "Unaligned"
  | some s => if s == "" then "Unaligned" else s

/-- Python `dict.get(k, d)` on an association list with unique keys. -/
def dictGet {α : Type} : List (String × α) → String → α → α
  | [], _, d => d
  | p :: ps, k, d => if p.1 == k then p.2 else dictGet ps k d

/-- `tasks_by_goal.setdefault(key, []).append(td)`. -/
def addTaskEntry (m : List (String × List TaskDict)) (key : String) (td : TaskDict) :
    List (String × List TaskDict) :=
  if m.any (fun p => p.1 == key) then
    m.map (fun p => if p.1 == key then (p.1, p.2 ++ [td]) else p)
  else m ++ [(key, [td])]

/-- The `tasks_by_goal` dictionary of `_build_schedule_context`. -/
def tasksByGoal (tasks : List Task) : List (String × List TaskDict) :=
  tasks.foldl (fun m t => addTaskEntry m (taskKey t) (taskDict t)) []

/-- One step of the `goal_lookup` dict comprehension: a repeated name keeps
its first position but takes the last value. -/
def upsertGoal (m : List (String × Goal)) (g : Goal) : List (String × Goal) :=
  if m.any (fun p => p.1 == g.name) then
    m.map (fun p => if p.1 == g.name then (p.1, g) else p)
  else m ++ [(g.name, g)]

/-- `goal_lookup = {goal.name: goal for goal in self.goals}`. -/
def goalLookup (goals : List Goal) : List (String × Goal) :=
  goals.foldl upsertGoal []

/-- One `goal_focus` record of the scheduling context. -/
structure GoalSummary where
  goal : String
  difficulty : String
  notes : String
  tasks : List TaskDict
deriving DecidableEq

/-- The `goal_summaries` list built by `_build_schedule_context`: one entry
per (deduplicated) goal, then an `"Unaligned"` entry iff that key is in
`tasks_by_goal`. -/
def buildGoalFocus (tasks : List Task) (goals : List Goal) : List GoalSummary :=
  (goalLookup goals).map
    (fun p => ⟨p.1, p.2.difficulty, p.2.notes, dictGet (tasksByGoal tasks) p.1 []⟩) ++
    (if (tasksByGoal tasks).any (fun q => q.1 == "Unaligned") then
      [⟨"Unaligned", "", "", dictGet (tasksByGoal tasks) "Unaligned" []⟩]
    else [])

/-- The candidate fire timestamp of `_reminder_loop`, before the one-week
adjustment: the Monday of `now`'s week, moved forward by the block's weekday
index, with time-of-day replaced by the block's start time.  Times are in
seconds; the epoch is a Monday 00:00. -/
def fireCandidate (now d h m : Nat) : Nat :=
  86400 * (now / 86400 - now / 86400 % 7 + d) + 3600 * h + 60 * m

/-- The fire-timestamp computation of `TaskManagerApp._reminder_loop`:
`monday = now - timedelta(days=now.weekday())`,
`block_dt = (monday + timedelta(days=day_index)).replace(hour, minute, 0, 0)`,
plus one week when `block_dt < now`. -/
def computeFire (now d h m : Nat) : Nat :=
  let monday := now - 86400 * (now / 86400 % 7)
  let blockDate := monday + 86400 * d
  let blockDt := 86400 * (blockDate / 86400) + 3600 * h + 60 * m
  if blockDt < now then blockDt + 604800 else blockDt

/-- The dedup identity `(block.day, block.start_time, block.title)`. -/
abbrev Ident := String × String × String

/-- `identifier = (block.day, block.start_time, block.title)`. -/
def identOf (b : TimeBlock) : Ident := (b.day, b.start_time, b.title)

/-- One pass of the reminder poll loop body at time `current`: deliver every
entry whose window `[dt, dt+60)` contains `current` and whose identity is not
yet in `shown`, marking it.  Returns the new `shown` set and the delivered
blocks of this tick, in order. -/
def tickOnce (current : Nat) : List (Nat × TimeBlock) → List Ident → List Ident × List TimeBlock
  | [], shown => (shown, [])
  | (dt, b) :: rest, shown =>
    if dt ≤ current ∧ current < dt + 60 ∧ identOf b ∉ shown then
      let r := tickOnce current rest (identOf b :: shown)
      (r.1, b :: r.2)
    else tickOnce current rest shown

/-- A whole reminder run: the poll loop executed at the given tick times,
starting from the given `shown` set (empty at loop entry), collecting every
delivered block. -/
def runTicks : List Nat → List (Nat × TimeBlock) → List Ident → List Ident × List TimeBlock
  | [], _, shown => (shown, [])
  | t :: ts, entries, shown =>
    let r1 := tickOnce t entries shown
    let r2 := runTicks ts entries r1.1
    (r2.1, r1.2 ++ r2.2)

/-- The session state touched by `generate_schedule` (UI widgets are
presentation and not modelled). -/
structure AppState where
  tasks : List Task
  goals : List Goal
  busy_slots : BusyDict
  generated_blocks : List TimeBlock
  reminder_running : Bool
deriving DecidableEq

/-- `GPTScheduler.generate_schedule`: raises (`.error`) when the client is
unavailable, otherwise returns the external service's outcome (itself an
exception or a parsed response). -/
def GPTScheduler.generate_schedule (available : Bool) (external : Except String RawDays) :
    Except String RawDays :=
  if !available then Except.error "OpenAI client not available" else external

/-- The state transition of `TaskManagerApp.generate_schedule`: early return
on no tasks or unavailable client; a caught exception from the client leaves
the state unchanged; on success the parsed blocks replace
`generated_blocks`. -/
def TaskManagerApp.generate_schedule (st : AppState) (available : Bool)
    (external : Except String RawDays) : AppState :=
  if st.tasks.isEmpty then st
  else if !available then st
  else
    match GPTScheduler.generate_schedule available external with
    | Except.error _ => st
    | Except.ok days => { st with generated_blocks := parseSchedule days }

/-! ### Concrete inputs used by witnesses and counterexamples -/

/-- A generated block, Monday 09:00-10:00. -/
def blkA : TimeBlock := ⟨"A", "Monday", "09:00", "10:00", ""⟩

/-- A generated block, Monday 10:00-11:00: touches `blkA` at the boundary. -/
def blkB : TimeBlock := ⟨"B", "Monday", "10:00", "11:00", ""⟩

/-- A session state with one task, one generated block, reminders running. -/
def stExample : AppState :=
  ⟨[⟨"Write report", 2, "Medium", "", none⟩], [], [], [blkA], true⟩

/-- A raw entry with all required keys present and no details. -/
def entryFull : RawEntry := ⟨some "Deep work", some "08:00", some "09:30", none⟩

/-- A raw entry missing its `start` key. -/
def entryNoStart : RawEntry := ⟨some "Broken", none, some "09:00", some "x"⟩

/-- A task whose `goal` field names a goal that does not exist. -/
def taskGhost : Task := ⟨"Ghost task", 1, "Low", "", some "Ghost"⟩

/-- A task referencing the goal `"Launch"`. -/
def taskL1 : Task := ⟨"Draft announcement", 2, "Medium", "", some "Launch"⟩

/-- A second task referencing the goal `"Launch"`. -/
def taskL2 : Task := ⟨"Prepare demo", 3, "High", "", some "Launch"⟩

/-- A task with no goal reference. -/
def taskFree : Task := ⟨"Inbox zero", 1, "Low", "", none⟩

/-- The goal `"Launch"`. -/
def goalLaunch : Goal := ⟨"Launch", "High", "ship it"⟩

/-- A busy dictionary with two Monday slots, hours 5 and 7. -/
def busyC8 : BusyDict :=
  WEEKDAYS.map (fun d => (d, if d == "Monday" then [(5, 1), (7, 1)] else []))

/-- The spec's sorting example, entered as Wednesday 09:00, Monday 14:00,
Monday 08:00. -/
def exampleDays : RawDays :=
  [("Wednesday", [⟨some "Block W", some "09:00", some "10:00", none⟩]),
   ("Monday", [⟨some "Block A", some "14:00", some "15:00", none⟩,
               ⟨some "Block B", some "08:00", some "09:00", none⟩])]

/-- Expected first output block of the sorting example. -/
def blkMon8 : TimeBlock := ⟨"Block B", "Monday", "08:00", "09:00", ""⟩

/-- Expected second output block of the sorting example. -/
def blkMon14 : TimeBlock := ⟨"Block A", "Monday", "14:00", "15:00", ""⟩

/-- Expected third output block of the sorting example. -/
def blkWed9 : TimeBlock := ⟨"Block W", "Wednesday", "09:00", "10:00", ""⟩

/-- A busy dictionary with a single Monday 09:00-10:00 slot. -/
def busyMon9 : BusyDict :=
  WEEKDAYS.map (fun d => (d, if d == "Monday" then [(9, 1)] else []))

/-- The spec's conflict example: a generated Monday 09:30-10:30 block. -/
def blkStudy : TimeBlock := ⟨"Study", "Monday", "09:30", "10:30", ""⟩

/-- A busy dictionary whose Monday has the hour-23 slot. -/
def busy23 : BusyDict :=
  WEEKDAYS.map (fun d => (d, if d == "Monday" then [(23, 1)] else []))

/-- A generated Tuesday block with valid times. -/
def blkTue : TimeBlock := ⟨"Task", "Tuesday", "09:00", "10:00", ""⟩

/-- An identity unrelated to any block below. -/
def identX : Ident := ("Tuesday", "08:00", "X")

/-! ### Theorems -/

example : parseTime "09:30" = some 570 := by decide
example : parseTime "24:00" = none := by decide
example : parseTime "9:05" = some 545 := by decide
example : parseTime "banana" = none := by decide

/-- Claim C2: for `TimeBlock`s whose `start`/`end` fields parse as `HH:MM`
times of day, `overlaps` returns `false` whenever the weekdays differ; for
equal weekdays it returns `true` iff `start_a < end_b` and `start_b < end_a`;
in particular two same-day blocks that only touch at a boundary
(`a.end == b.start`) never overlap. -/
theorem overlaps_spec (a b : TimeBlock) (sa ea sb eb : Nat)
    (hsa : parseTime a.start_time = some sa) (hea : parseTime a.end_time = some ea)
    (hsb : parseTime b.start_time = some sb) (heb : parseTime b.end_time = some eb) :
    (a.day ≠ b.day → TimeBlock.overlaps a b = some false) ∧
    (a.day = b.day → TimeBlock.overlaps a b = some (decide (sa < eb) && decide (sb < ea))) ∧
    (a.day = b.day → a.end_time = b.start_time → TimeBlock.overlaps a b = some false) := by
  refine ⟨fun hne => ?_, fun heq => ?_, fun heq hte => ?_⟩
  · simp [TimeBlock.overlaps, hne]
  · simp [TimeBlock.overlaps, heq, hsa, hea, hsb, heb]
  · have hes : ea = sb := by
      rw [hte] at hea
      rw [hea] at hsb
      exact Option.some.inj hsb
    simp [TimeBlock.overlaps, heq, hsa, hea, hsb, heb, hes]

/-- Witness for C2, at the boundary-touching pair `blkA`, `blkB`. -/
theorem overlaps_spec_witness :
    (blkA.day ≠ blkB.day → TimeBlock.overlaps blkA blkB = some false) ∧
    (blkA.day = blkB.day →
      TimeBlock.overlaps blkA blkB = some (decide (540 < 660) && decide (600 < 600))) ∧
    (blkA.day = blkB.day → blkA.end_time = blkB.start_time →
      TimeBlock.overlaps blkA blkB = some false) :=
  overlaps_spec blkA blkB 540 600 600 660 (by decide) (by decide) (by decide) (by decide)

/-- Claim C9: a failed generation attempt (unavailable client or an exception
from the external call) leaves the whole session state, in particular the
previously generated blocks and the reminder state, exactly as before; and the
client itself fails when called while unavailable. -/
theorem generate_schedule_failure (st : AppState) (available : Bool)
    (external : Except String RawDays)
    (h : available = false ∨ ∃ msg, external = Except.error msg) :
    TaskManagerApp.generate_schedule st available external = st ∧
    (TaskManagerApp.generate_schedule st available external).generated_blocks =
      st.generated_blocks ∧
    (TaskManagerApp.generate_schedule st available external).reminder_running =
      st.reminder_running ∧
    (available = false →
      GPTScheduler.generate_schedule available external =
        Except.error "OpenAI client not available") := by
  have hmain : TaskManagerApp.generate_schedule st available external = st := by
    rcases h with h | ⟨msg, h⟩
    · subst h
      simp [TaskManagerApp.generate_schedule]
    · subst h
      simp only [TaskManagerApp.generate_schedule, GPTScheduler.generate_schedule]
      rcases available with _ | _ <;> simp
  refine ⟨hmain, by rw [hmain], by rw [hmain], fun hav => ?_⟩
  subst hav
  simp [GPTScheduler.generate_schedule]

/-- Witness for C9: an unavailable client leaves `stExample` untouched. -/
theorem generate_schedule_failure_witness :
    TaskManagerApp.generate_schedule stExample false (Except.error "boom") = stExample ∧
    (TaskManagerApp.generate_schedule stExample false (Except.error "boom")).generated_blocks =
      stExample.generated_blocks ∧
    (TaskManagerApp.generate_schedule stExample false (Except.error "boom")).reminder_running =
      stExample.reminder_running ∧
    (false = false →
      GPTScheduler.generate_schedule false (Except.error "boom") =
        Except.error "OpenAI client not available") :=
  generate_schedule_failure stExample false (Except.error "boom") (Or.inl rfl)

/-- `collectBlocks` distributes over concatenation of the `days` mapping. -/
lemma collectBlocks_append (l1 l2 : RawDays) :
    collectBlocks (l1 ++ l2) = collectBlocks l1 ++ collectBlocks l2 := by
  induction l1 with
  | nil => rfl
  | cons p rest ih => simp [collectBlocks, ih]

/-- An entry missing any required key is rejected by `parseEntry`. -/
lemma parseEntry_none (d : String) (e : RawEntry)
    (he : e.title = none ∨ e.start = none ∨ e.end_ = none) :
    parseEntry d e = none := by
  obtain ⟨t, s, en, de⟩ := e
  cases t <;> cases s <;> cases en <;> simp_all [parseEntry]

/-- `parseDay` distributes over concatenation of the entry list. -/
lemma parseDay_append (d : String) (l1 l2 : List RawEntry) :
    parseDay d (l1 ++ l2) = parseDay d l1 ++ parseDay d l2 := by
  induction l1 with
  | nil => rfl
  | cons e es ih => cases h : parseEntry d e <;> simp [parseDay, h, ih]

/-- Claim C3: the schedule parser drops weekday keys outside the canonical
seven-day set without error (they contribute no blocks), silently skips an
entry missing `title`, `start` or `end` while still processing the remaining
entries, and turns every complete entry into a `TimeBlock` whose `details`
defaults to `""` when absent. -/
theorem parse_schedule_robust (pre post : RawDays) (d d' : String)
    (es : List RawEntry) (e f : RawEntry) (es1 es2 : List RawEntry) (t s en : String)
    (hd : d ∉ WEEKDAYS)
    (he : e.title = none ∨ e.start = none ∨ e.end_ = none)
    (ht : f.title = some t) (hs : f.start = some s) (hen : f.end_ = some en) :
    parseSchedule (pre ++ (d, es) :: post) = parseSchedule (pre ++ post) ∧
    parseDay d' (es1 ++ e :: es2) = parseDay d' es1 ++ parseDay d' es2 ∧
    parseEntry d' f = some ⟨t, d', s, en, f.details.getD ""⟩ := by
  refine ⟨?_, ?_, ?_⟩
  · unfold parseSchedule
    rw [collectBlocks_append, collectBlocks_append]
    have : collectBlocks ((d, es) :: post) = collectBlocks post := by
      simp [collectBlocks, hd]
    rw [this]
  · rw [parseDay_append]
    have : parseDay d' (e :: es2) = parseDay d' es2 := by
      simp [parseDay, parseEntry_none d' e he]
    rw [this]
  · simp [parseEntry, ht, hs, hen]

/-- Witness for C3: the key `"Funday"` is dropped, `entryNoStart` is skipped
while its neighbours survive, and `entryFull` becomes a block with empty
details. -/
theorem parse_schedule_robust_witness :
    parseSchedule ([("Monday", [entryFull])] ++ ("Funday", [entryFull]) :: []) =
      parseSchedule ([("Monday", [entryFull])] ++ []) ∧
    parseDay "Tuesday" ([entryFull] ++ entryNoStart :: [entryFull]) =
      parseDay "Tuesday" [entryFull] ++ parseDay "Tuesday" [entryFull] ∧
    parseEntry "Tuesday" entryFull =
      some ⟨"Deep work", "Tuesday", "08:00", "09:30", entryFull.details.getD ""⟩ :=
  parse_schedule_robust [("Monday", [entryFull])] [] "Funday" "Tuesday" [entryFull]
    entryNoStart entryFull [entryFull] [entryFull] "Deep work" "08:00" "09:30"
    (by decide) (Or.inr (Or.inl rfl)) rfl rfl rfl

/-- When no stored pair sits at `hour`, `toggleList` appends `(hour, 1)`. -/
lemma toggleList_absent (l : List (Nat × Nat)) (h : Nat) (habs : ∀ q ∈ l, q.1 ≠ h) :
    toggleList l h = l ++ [(h, 1)] := by
  have hany : l.any (fun q => q.1 == h) = false := by
    simp only [List.any_eq_false, beq_iff_eq]
    exact habs
  simp [toggleList, hany]

/-- When some stored pair sits at `hour`, `toggleList` removes every pair at
that hour. -/
lemma toggleList_present (l : List (Nat × Nat)) (h : Nat) (hex : ∃ q ∈ l, q.1 = h) :
    toggleList l h = l.filter (fun q => q.1 != h) := by
  have hany : l.any (fun q => q.1 == h) = true := by
    simp only [List.any_eq_true, beq_iff_eq]
    exact hex
  simp [toggleList, hany]

/-- Toggling twice at an absent hour restores the exact list. -/
lemma toggleList_twice_absent (l : List (Nat × Nat)) (h : Nat)
    (habs : ∀ q ∈ l, q.1 ≠ h) : toggleList (toggleList l h) h = l := by
  rw [toggleList_absent l h habs]
  have hany : ((l ++ [(h, 1)]).any (fun q => q.1 == h)) = true := by simp
  have hfl : l.filter (fun q => q.1 != h) = l :=
    List.filter_eq_self.mpr (fun a ha => by simpa [bne_iff_ne] using habs a ha)
  simp [toggleList, hany, List.filter_append, hfl]

/-- Toggling twice preserves membership of the day's slot list, provided
every slot at the toggled hour has duration 1 (as `toggle_busy` creates). -/
lemma toggleList_twice_mem (l : List (Nat × Nat)) (h : Nat)
    (hdur : ∀ q ∈ l, q.1 = h → q.2 = 1) (x : Nat × Nat) :
    x ∈ toggleList (toggleList l h) h ↔ x ∈ l := by
  cases hany : l.any (fun q => q.1 == h) with
  | false =>
    have habs : ∀ q ∈ l, q.1 ≠ h := by
      have := List.any_eq_false.mp hany
      intro q hq
      simpa using this q hq
    rw [toggleList_twice_absent l h habs]
  | true =>
    have hex : ∃ q ∈ l, q.1 = h := by
      have := List.any_eq_true.mp hany
      simpa [beq_iff_eq] using this
    have h1 : toggleList l h = l.filter (fun q => q.1 != h) := toggleList_present l h hex
    have h2 : toggleList (toggleList l h) h = l.filter (fun q => q.1 != h) ++ [(h, 1)] := by
      rw [h1]
      refine toggleList_absent _ h (fun q hq => ?_)
      have := (List.mem_filter.mp hq).2
      simpa [bne_iff_ne] using this
    rw [h2]
    simp only [List.mem_append, List.mem_filter, List.mem_singleton]
    constructor
    · rintro (⟨hxl, _⟩ | hx1)
      · exact hxl
      · obtain ⟨q, hql, hqh⟩ := hex
        have hq2 : q.2 = 1 := hdur q hql hqh
        have hq' : q = (h, 1) := by
          obtain ⟨q1, q2⟩ := q
          simp_all
        rw [hx1, ← hq']
        exact hql
    · intro hxl
      by_cases hxh : x.1 = h
      · right
        have hx2 : x.2 = 1 := hdur x hxl hxh
        obtain ⟨x1, x2⟩ := x
        simp_all
      · exact Or.inl ⟨hxl, by simpa [bne_iff_ne] using hxh⟩

/-- A map whose function fixes every element of the list is the identity. -/
lemma map_eq_self_of {α : Type} (l : List α) (f : α → α) (h : ∀ x ∈ l, f x = x) :
    l.map f = l := by
  induction l with
  | nil => rfl
  | cons a as ih => simp_all

/-- Claim C8 (amended): `toggle` adds a one-hour slot when the hour is absent
and removes every slot at that hour when present; toggling the same
`(day, hour)` twice restores the exact prior state when the hour was absent,
and in general (all stored durations at that hour being 1, as the editor
creates them) restores the same set of slots for the day, though possibly
reordered. -/
theorem toggle_busy_spec (busy : BusyDict) (d : String) (h : Nat) (l : List (Nat × Nat))
    (hdur : ∀ q ∈ l, q.1 = h → q.2 = 1) :
    ((∀ q ∈ l, q.1 ≠ h) → toggleList l h = l ++ [(h, 1)]) ∧
    ((∃ q ∈ l, q.1 = h) → toggleList l h = l.filter (fun q => q.1 != h)) ∧
    ((∀ q ∈ l, q.1 ≠ h) → toggleList (toggleList l h) h = l) ∧
    (∀ x, x ∈ toggleList (toggleList l h) h ↔ x ∈ l) ∧
    ((∀ p ∈ busy, p.1 = d → ∀ q ∈ p.2, q.1 ≠ h) →
      toggle_busy (toggle_busy busy d h) d h = busy) := by
  refine ⟨toggleList_absent l h, toggleList_present l h, toggleList_twice_absent l h,
    toggleList_twice_mem l h hdur, fun hnone => ?_⟩
  have hcomp : toggle_busy (toggle_busy busy d h) d h =
      busy.map (fun p => if p.1 == d then (p.1, toggleList (toggleList p.2 h) h) else p) := by
    simp only [toggle_busy, List.map_map]
    apply List.map_congr_left
    intro p _
    by_cases hp : p.1 == d <;> simp [hp, Function.comp]
  rw [hcomp]
  apply map_eq_self_of
  intro p hp
  by_cases hpd : p.1 == d
  · have hd' : p.1 = d := by simpa using hpd
    rw [if_pos hpd, toggleList_twice_absent p.2 h (hnone p hp hd')]
  · rw [if_neg hpd]

/-- Counterexample to C8 as stated: toggling Monday hour 5 twice on `busyC8`
does not return the busy-time model to exactly its prior state (the slot is
re-appended at the end of the day's list). -/
theorem toggle_busy_twice_not_exact :
    toggle_busy (toggle_busy busyC8 "Monday" 5) "Monday" 5 ≠ busyC8 := by decide

/-- Witness for C8, on `busyC8` and Monday's slot list. -/
theorem toggle_busy_spec_witness :
    ((∀ q ∈ [(5, 1), (7, 1)], q.1 ≠ 5) →
      toggleList [(5, 1), (7, 1)] 5 = [(5, 1), (7, 1)] ++ [(5, 1)]) ∧
    ((∃ q ∈ [(5, 1), (7, 1)], q.1 = 5) →
      toggleList [(5, 1), (7, 1)] 5 = [(5, 1), (7, 1)].filter (fun q => q.1 != 5)) ∧
    ((∀ q ∈ [(5, 1), (7, 1)], q.1 ≠ 5) →
      toggleList (toggleList [(5, 1), (7, 1)] 5) 5 = [(5, 1), (7, 1)]) ∧
    (∀ x, x ∈ toggleList (toggleList [(5, 1), (7, 1)] 5) 5 ↔ x ∈ [(5, 1), (7, 1)]) ∧
    ((∀ p ∈ busyC8, p.1 = "Monday" → ∀ q ∈ p.2, q.1 ≠ 5) →
      toggle_busy (toggle_busy busyC8 "Monday" 5) "Monday" 5 = busyC8) :=
  toggle_busy_spec busyC8 "Monday" 5 [(5, 1), (7, 1)] (by decide)

/-- Claim C6 (amended): the computed fire timestamp is the candidate — most
recent Monday at or before `now` (date-wise), plus the weekday offset, with
time-of-day set to the block's start — plus exactly one week iff the candidate
is strictly earlier than `now`; consequently the fire time is at or after
`now`, and strictly in the future except when the candidate equals `now`
exactly. -/
theorem compute_fire_spec (now d h m : Nat) :
    computeFire now d h m =
      (if fireCandidate now d h m < now then fireCandidate now d h m + 604800
       else fireCandidate now d h m) ∧
    now ≤ computeFire now d h m ∧
    (fireCandidate now d h m ≠ now → now < computeFire now d h m) := by
  refine ⟨?_, ?_, ?_⟩
  · simp only [computeFire, fireCandidate]
    split <;> split <;> omega
  · simp only [computeFire, fireCandidate]
    split <;> omega
  · intro hne
    simp only [fireCandidate] at hne
    simp only [computeFire, fireCandidate]
    split <;> omega

/-- Counterexample to C6 as stated: at `now = 0` (a Monday at exactly
00:00:00) a Monday block starting `00:00` gets fire time `now` itself, which
is not in the future relative to `now`. -/
theorem compute_fire_not_future :
    computeFire 0 0 0 0 = 0 ∧ ¬ (0 < computeFire 0 0 0 0) := by decide

/-- Witness for C6 at a concrete time and block position. -/
theorem compute_fire_spec_witness :
    computeFire 1000000 2 9 30 =
      (if fireCandidate 1000000 2 9 30 < 1000000 then fireCandidate 1000000 2 9 30 + 604800
       else fireCandidate 1000000 2 9 30) ∧
    1000000 ≤ computeFire 1000000 2 9 30 ∧
    (fireCandidate 1000000 2 9 30 ≠ 1000000 → 1000000 < computeFire 1000000 2 9 30) :=
  compute_fire_spec 1000000 2 9 30

/-- `dictGet` returns the default when the key is absent. -/
lemma dictGet_absent {α : Type} (m : List (String × α)) (k : String) (d : α)
    (h : m.any (fun p => p.1 == k) = false) : dictGet m k d = d := by
  induction m with
  | nil => rfl
  | cons p ps ih =>
    simp only [List.any_cons, Bool.or_eq_false_iff] at h
    simp [dictGet, h.1, ih h.2]

/-- Appending `td` to every bucket keyed `key` changes exactly the lookup at
`key` (when present), leaving other lookups unchanged. -/
lemma dictGet_mapAppend (m : List (String × List TaskDict)) (key k : String) (td : TaskDict) :
    dictGet (m.map (fun p => if p.1 == key then (p.1, p.2 ++ [td]) else p)) k [] =
      (if k = key ∧ m.any (fun p => p.1 == k) = true then dictGet m k [] ++ [td]
       else dictGet m k []) := by
  induction m with
  | nil => simp [dictGet]
  | cons p ps ih =>
    by_cases hpk : (p.1 == k) = true
    · by_cases hkey : k = key
      · subst hkey
        simp [dictGet, hpk, List.any_cons]
      · have hpkey : (p.1 == key) = false := by
          have : p.1 = k := by simpa using hpk
          simp [this, hkey]
        simp [dictGet, hpk, hpkey, hkey]
    · have hfst : ((if (p.1 == key) = true then (p.1, p.2 ++ [td]) else p) :
          String × List TaskDict).1 = p.1 := by
        by_cases hp : (p.1 == key) = true <;> simp [hp]
      simp only [List.map_cons, dictGet, hfst, hpk, List.any_cons, ih,
        Bool.false_or, if_false, Bool.false_eq_true]

/-- `dictGet` ignores a trailing pair when the key occurs earlier. -/
lemma dictGet_append_present {α : Type} (m : List (String × α)) (key k : String) (v d : α)
    (h : m.any (fun p => p.1 == k) = true) :
    dictGet (m ++ [(key, v)]) k d = dictGet m k d := by
  induction m with
  | nil => simp at h
  | cons p ps ih =>
    by_cases hpk : (p.1 == k) = true
    · simp [dictGet, hpk]
    · have hpk' : (p.1 == k) = false := by
        simp only [Bool.not_eq_true] at hpk
        exact hpk
      simp only [List.any_cons, hpk', Bool.false_or] at h
      simp [dictGet, hpk', ih h]

/-- `dictGet` finds a trailing pair when the key is absent earlier. -/
lemma dictGet_append_absent {α : Type} (m : List (String × α)) (key k : String) (v d : α)
    (h : m.any (fun p => p.1 == k) = false) :
    dictGet (m ++ [(key, v)]) k d = (if k = key then v else d) := by
  induction m with
  | nil =>
    by_cases hk : k = key
    · simp [dictGet, hk]
    · have hkey : (key == k) = false := by simp [Ne.symm hk]
      simp [dictGet, hkey, hk]
  | cons p ps ih =>
    simp only [List.any_cons, Bool.or_eq_false_iff] at h
    simp [dictGet, h.1, ih h.2]

/-- `setdefault(key, []).append(td)` appends to the `key` lookup and leaves
other lookups unchanged. -/
lemma dictGet_addTaskEntry (m : List (String × List TaskDict)) (key k : String) (td : TaskDict) :
    dictGet (addTaskEntry m key td) k [] =
      (if k = key then dictGet m k [] ++ [td] else dictGet m k []) := by
  unfold addTaskEntry
  by_cases hany : m.any (fun p => p.1 == key) = true
  · rw [if_pos hany, dictGet_mapAppend]
    by_cases hk : k = key
    · subst hk
      simp [hany]
    · simp [hk]
  · rw [if_neg hany]
    have hanyf : m.any (fun p => p.1 == key) = false := by
      simp only [Bool.not_eq_true] at hany
      exact hany
    by_cases hk : k = key
    · subst hk
      rw [dictGet_append_absent m k k [td] [] hanyf, if_pos rfl, if_pos rfl,
        dictGet_absent m k [] hanyf]
      simp
    · by_cases hmk : m.any (fun p => p.1 == k) = true
      · rw [dictGet_append_present m key k [td] [] hmk, if_neg hk]
      · have hmk' : m.any (fun p => p.1 == k) = false := by
          simp only [Bool.not_eq_true] at hmk
          exact hmk
        rw [dictGet_append_absent m key k [td] [] hmk', if_neg hk, if_neg hk,
          dictGet_absent m k [] hmk']

/-- The `tasks_by_goal` fold, from an arbitrary accumulator: the lookup at `k`
is the accumulator's lookup followed by the dict records of the tasks whose
key is `k`, in order. -/
lemma tasksByGoal_foldl (ts : List Task) (m : List (String × List TaskDict)) (k : String) :
    dictGet (ts.foldl (fun m t => addTaskEntry m (taskKey t) (taskDict t)) m) k [] =
      dictGet m k [] ++ (ts.filter (fun t => taskKey t == k)).map taskDict := by
  induction ts generalizing m with
  | nil => simp
  | cons t ts ih =>
    simp only [List.foldl_cons, List.filter_cons]
    rw [ih, dictGet_addTaskEntry]
    by_cases hk : k = taskKey t
    · have hk' : (taskKey t == k) = true := by simp [hk]
      simp [hk, hk']
    · have hk' : (taskKey t == k) = false := by simp [Ne.symm hk]
      simp [hk, hk']

/-- The `tasks_by_goal` lookup at `k` collects exactly the tasks whose key is
`k`, in task order. -/
lemma tasksByGoal_get (ts : List Task) (k : String) :
    dictGet (tasksByGoal ts) k [] = (ts.filter (fun t => taskKey t == k)).map taskDict := by
  simpa [dictGet] using tasksByGoal_foldl ts [] k

/-- `addTaskEntry` adds the key `key` to the dictionary's key set. -/
lemma any_key_addTaskEntry (m : List (String × List TaskDict)) (key k : String) (td : TaskDict) :
    (addTaskEntry m key td).any (fun p => p.1 == k) =
      (m.any (fun p => p.1 == k) || (key == k)) := by
  unfold addTaskEntry
  by_cases hany : m.any (fun p => p.1 == key) = true
  · rw [if_pos hany, List.any_map]
    have hfun : ((fun p : String × List TaskDict => p.1 == k) ∘
        (fun p => if p.1 == key then (p.1, p.2 ++ [td]) else p)) =
        (fun p : String × List TaskDict => p.1 == k) := by
      funext p
      simp only [Function.comp_apply]
      by_cases hp : (p.1 == key) = true
      · rw [if_pos hp]
      · rw [if_neg hp]
    rw [hfun]
    by_cases hkk : (key == k) = true
    · have : key = k := by simpa using hkk
      subst this
      simp [hany]
    · simp [hkk]
  · rw [if_neg hany, List.any_append]
    simp

/-- `tasks_by_goal` contains the key `k` iff some task has key `k`. -/
lemma tasksByGoal_hasKey (ts : List Task) (k : String) :
    (tasksByGoal ts).any (fun p => p.1 == k) = ts.any (fun t => taskKey t == k) := by
  have main : ∀ m : List (String × List TaskDict),
      (ts.foldl (fun m t => addTaskEntry m (taskKey t) (taskDict t)) m).any
          (fun p => p.1 == k) =
        (m.any (fun p => p.1 == k) || ts.any (fun t => taskKey t == k)) := by
    induction ts with
    | nil => simp
    | cons t ts ih =>
      intro m
      simp only [List.foldl_cons, List.any_cons]
      rw [ih, any_key_addTaskEntry]
      cases m.any (fun p => p.1 == k) <;> cases htk : (taskKey t == k) <;> simp
  simpa [tasksByGoal] using main []

/-- The key set of `upsertGoal m g` is that of `m`, possibly extended by
`g.name`. -/
lemma upsertGoal_keys (m : List (String × Goal)) (g : Goal) :
    (upsertGoal m g).map Prod.fst =
      (if m.any (fun p => p.1 == g.name) = true then m.map Prod.fst
       else m.map Prod.fst ++ [g.name]) := by
  unfold upsertGoal
  by_cases hany : m.any (fun p => p.1 == g.name) = true
  · rw [if_pos hany, if_pos hany, List.map_map]
    apply List.map_congr_left
    intro p _
    by_cases hp : p.1 == g.name <;> simp [hp, Function.comp]
  · rw [if_neg hany, if_neg hany]
    simp

/-- Every key of `goal_lookup` is the name of some goal in the list. -/
lemma goalLookup_key_mem (goals : List Goal) :
    ∀ x ∈ (goalLookup goals).map Prod.fst, x ∈ goals.map Goal.name := by
  have main : ∀ m : List (String × Goal), ∀ x ∈ (goals.foldl upsertGoal m).map Prod.fst,
      x ∈ m.map Prod.fst ∨ x ∈ goals.map Goal.name := by
    induction goals with
    | nil => simp
    | cons g gs ih =>
      intro m x hx
      rcases ih (upsertGoal m g) x hx with hx' | hx'
      · rw [upsertGoal_keys] at hx'
        by_cases hany : m.any (fun p => p.1 == g.name) = true
        · rw [if_pos hany] at hx'
          exact Or.inl hx'
        · rw [if_neg hany] at hx'
          rcases List.mem_append.mp hx' with hx'' | hx''
          · exact Or.inl hx''
          · simp only [List.mem_singleton] at hx''
            subst hx''
            simp
      · simp [hx']
  intro x hx
  rcases main [] x hx with hx' | hx'
  · simp at hx'
  · exact hx'

/-- Claim C1 (amended): in the goal-focus list built by
`_build_schedule_context`, each (deduplicated) goal gets an entry whose task
bundle is exactly the tasks keyed by its name; the `"Unaligned"` entry is
appended iff at least one task has key `"Unaligned"`, i.e. a `None` or empty
`goal` field; a task whose `goal` names a nonexistent goal keeps that dangling
name as its key, and no goal-focus entry carries a dangling name, so such a
task lands in no bucket at all (unless the dangling name is literally
`"Unaligned"`). -/
theorem goal_focus_spec (tasks : List Task) (goals : List Goal) :
    buildGoalFocus tasks goals =
      (goalLookup goals).map (fun p =>
        ⟨p.1, p.2.difficulty, p.2.notes,
          (tasks.filter (fun t => taskKey t == p.1)).map taskDict⟩) ++
      (if tasks.any (fun t => taskKey t == "Unaligned") then
        [⟨"Unaligned", "", "",
          (tasks.filter (fun t => taskKey t == "Unaligned")).map taskDict⟩]
      else []) ∧
    (∀ g : String, g ∉ goals.map Goal.name → g ≠ "Unaligned" →
      ∀ s ∈ buildGoalFocus tasks goals, s.goal ≠ g) ∧
    (∀ t : Task, ∀ g : String, t.goal = some g → g ≠ "" → taskKey t = g) := by
  have hmain : buildGoalFocus tasks goals =
      (goalLookup goals).map (fun p =>
        ⟨p.1, p.2.difficulty, p.2.notes,
          (tasks.filter (fun t => taskKey t == p.1)).map taskDict⟩) ++
      (if tasks.any (fun t => taskKey t == "Unaligned") then
        [⟨"Unaligned", "", "",
          (tasks.filter (fun t => taskKey t == "Unaligned")).map taskDict⟩]
      else []) := by
    unfold buildGoalFocus
    rw [tasksByGoal_hasKey]
    congr 1
    · apply List.map_congr_left
      intro p _
      rw [tasksByGoal_get]
    · by_cases hu : tasks.any (fun t => taskKey t == "Unaligned") = true
      · rw [if_pos hu, if_pos hu, tasksByGoal_get]
      · rw [if_neg hu, if_neg hu]
  refine ⟨hmain, fun g hg hgu s hs => ?_, fun t g hg hge => ?_⟩
  · rw [hmain] at hs
    intro hsg
    rcases List.mem_append.mp hs with hs' | hs'
    · obtain ⟨p, hp, hps⟩ := List.mem_map.mp hs'
      have hsgoal : s.goal = p.1 := by rw [← hps]
      rw [hsgoal] at hsg
      have hmem : p.1 ∈ (goalLookup goals).map Prod.fst :=
        List.mem_map_of_mem Prod.fst hp
      rw [hsg] at hmem
      exact hg (goalLookup_key_mem goals g hmem)
    · have hune : s.goal = "Unaligned" := by
        by_cases hu : tasks.any (fun t => taskKey t == "Unaligned") = true
        · rw [if_pos hu] at hs'
          simp only [List.mem_singleton] at hs'
          rw [hs']
        · rw [if_neg hu] at hs'
          simp at hs'
      rw [hsg] at hune
      exact hgu hune
  · simp [taskKey, hg, hge]

/-- Counterexample to C1 as stated: a single task with the dangling goal
reference `"Ghost"` and no goals at all produces an empty goal-focus list —
no `"Unaligned"` entry is appended even though the claim places the task in
the `"Unaligned"` bucket. -/
theorem goal_focus_dangling_counterexample :
    buildGoalFocus [taskGhost] [] = [] ∧
    ¬ ∃ s ∈ buildGoalFocus [taskGhost] [], s.goal = "Unaligned" := by decide

/-- Witness for C1 on the spec's own example: two tasks on goal `"Launch"`
plus one goal-free task. -/
theorem goal_focus_spec_witness :
    buildGoalFocus [taskL1, taskL2, taskFree] [goalLaunch] =
      (goalLookup [goalLaunch]).map (fun p =>
        ⟨p.1, p.2.difficulty, p.2.notes,
          (([taskL1, taskL2, taskFree]).filter (fun t => taskKey t == p.1)).map taskDict⟩) ++
      (if ([taskL1, taskL2, taskFree]).any (fun t => taskKey t == "Unaligned") then
        [⟨"Unaligned", "", "",
          (([taskL1, taskL2, taskFree]).filter (fun t => taskKey t == "Unaligned")).map
            taskDict⟩]
      else []) ∧
    (∀ g : String, g ∉ ([goalLaunch]).map Goal.name → g ≠ "Unaligned" →
      ∀ s ∈ buildGoalFocus [taskL1, taskL2, taskFree] [goalLaunch], s.goal ≠ g) ∧
    (∀ t : Task, ∀ g : String, t.goal = some g → g ≠ "" → taskKey t = g) :=
  goal_focus_spec [taskL1, taskL2, taskFree] [goalLaunch]

/-- Codepoint-lexicographic `<` on character lists is asymmetric. -/
lemma charListLt_asym (x y : List Char) (h : charListLt x y = true) :
    charListLt y x = false := by
  induction x generalizing y with
  | nil =>
    cases y with
    | nil => simp [charListLt] at h
    | cons b bs => rfl
  | cons a as ih =>
    cases y with
    | nil => simp [charListLt] at h
    | cons b bs =>
      simp only [charListLt, Bool.or_eq_true, Bool.and_eq_true, decide_eq_true_eq] at h
      simp only [charListLt, Bool.or_eq_false_iff, Bool.and_eq_false_iff,
        decide_eq_false_iff_not]
      rcases h with h | ⟨heq, hlt⟩
      · exact ⟨by omega, Or.inl (by omega)⟩
      · exact ⟨by omega, Or.inr (ih bs hlt)⟩

/-- Codepoint-lexicographic not-less-than is transitive. -/
lemma charListLt_negtrans (x y z : List Char)
    (h1 : charListLt y x = false) (h2 : charListLt z y = false) :
    charListLt z x = false := by
  induction x generalizing y z with
  | nil =>
    cases z with
    | nil => rfl
    | cons c cs => simp [charListLt]
  | cons a as ih =>
    cases y with
    | nil => simp [charListLt] at h1
    | cons b bs =>
      cases z with
      | nil => simp [charListLt] at h2
      | cons c cs =>
        simp only [charListLt, Bool.or_eq_false_iff, Bool.and_eq_false_iff,
          decide_eq_false_iff_not] at h1 h2 ⊢
        obtain ⟨h1n, h1r⟩ := h1
        obtain ⟨h2n, h2r⟩ := h2
        refine ⟨by omega, ?_⟩
        by_cases hca : c.toNat = a.toNat
        · have hbs : charListLt bs as = false := by
            rcases h1r with h | h
            · exact absurd (by omega) h
            · exact h
          have hcs : charListLt cs bs = false := by
            rcases h2r with h | h
            · exact absurd (by omega) h
            · exact h
          exact Or.inr (ih bs cs hbs hcs)
        · exact Or.inl hca

/-- The strict sort key order is asymmetric. -/
lemma blockLt_asym (a b : TimeBlock) (h : blockLt a b = true) : blockLt b a = false := by
  simp only [blockLt, Bool.or_eq_true, Bool.and_eq_true, decide_eq_true_eq] at h
  simp only [blockLt, Bool.or_eq_false_iff, Bool.and_eq_false_iff, decide_eq_false_iff_not]
  rcases h with h | ⟨heq, hlt⟩
  · exact ⟨by omega, Or.inl (by omega)⟩
  · exact ⟨by omega, Or.inr (charListLt_asym _ _ hlt)⟩

/-- The non-strict sort key order is transitive. -/
lemma blockLt_negtrans (a b c : TimeBlock)
    (h1 : blockLt b a = false) (h2 : blockLt c b = false) : blockLt c a = false := by
  simp only [blockLt, Bool.or_eq_false_iff, Bool.and_eq_false_iff,
    decide_eq_false_iff_not] at h1 h2 ⊢
  obtain ⟨h1n, h1r⟩ := h1
  obtain ⟨h2n, h2r⟩ := h2
  refine ⟨by omega, ?_⟩
  by_cases hca : dayIndex c.day = dayIndex a.day
  · have h1c : charListLt b.start_time.data a.start_time.data = false := by
      rcases h1r with h | h
      · exact absurd (by omega) h
      · exact h
    have h2c : charListLt c.start_time.data b.start_time.data = false := by
      rcases h2r with h | h
      · exact absurd (by omega) h
      · exact h
    exact Or.inr (charListLt_negtrans _ _ _ h1c h2c)
  · exact Or.inl hca

/-- Claim C4: for every raw response, the parser's output is sorted by the
pair (weekday index in canonical Monday-Sunday order, start time string
compared lexicographically), is a permutation of the accepted blocks, and on
the spec's example — Wednesday 09:00, Monday 14:00, Monday 08:00 — comes out
Monday 08:00, Monday 14:00, Wednesday 09:00. -/
theorem parse_schedule_sorted (days : RawDays) :
    List.Pairwise keyLE (parseSchedule days) ∧
    (parseSchedule days).Perm (collectBlocks days) ∧
    parseSchedule exampleDays = [blkMon8, blkMon14, blkWed9] := by
  haveI htotal : IsTotal TimeBlock keyLE := ⟨fun a b => by
    unfold keyLE
    by_cases h : blockLt b a = true
    · exact Or.inr (blockLt_asym b a h)
    · exact Or.inl (by
        simp only [Bool.not_eq_true] at h
        exact h)⟩
  haveI htrans : IsTrans TimeBlock keyLE := ⟨fun a b c h1 h2 => blockLt_negtrans a b c h1 h2⟩
  refine ⟨?_, ?_, by decide⟩
  · exact List.sorted_insertionSort keyLE (collectBlocks days)
  · exact List.perm_insertionSort keyLE (collectBlocks days)

/-- Witness for C4 on the spec's example input. -/
theorem parse_schedule_sorted_witness :
    List.Pairwise keyLE (parseSchedule exampleDays) ∧
    (parseSchedule exampleDays).Perm (collectBlocks exampleDays) ∧
    parseSchedule exampleDays = [blkMon8, blkMon14, blkWed9] :=
  parse_schedule_sorted exampleDays

/-- When every overlap test parses, the inner conflict loop emits one message
for exactly the busy blocks that overlap the given block, in order. -/
lemma conflictsOne_spec (b : TimeBlock) (busyBs : List TimeBlock)
    (h : ∀ c ∈ busyBs, (TimeBlock.overlaps b c).isSome) :
    conflictsOne b busyBs =
      some ((busyBs.filter (fun c => (TimeBlock.overlaps b c).getD false)).map
        (fun _ => conflictMsg b)) := by
  induction busyBs with
  | nil => rfl
  | cons c cs ih =>
    obtain ⟨o, ho⟩ := Option.isSome_iff_exists.mp (h c (by simp))
    have ih' := ih (fun c' hc' => h c' (by simp [hc']))
    cases o <;> simp [conflictsOne, ho, ih', List.filter_cons]

/-- When every overlap test parses, the conflict detector emits, block by
block, one message per overlapping busy block. -/
lemma findConflictsAux_spec (busyBs : List TimeBlock) (blocks : List TimeBlock)
    (h : ∀ b ∈ blocks, ∀ c ∈ busyBs, (TimeBlock.overlaps b c).isSome) :
    findConflictsAux busyBs blocks =
      some (blocks.flatMap (fun b =>
        (busyBs.filter (fun c => (TimeBlock.overlaps b c).getD false)).map
          (fun _ => conflictMsg b))) := by
  induction blocks with
  | nil => rfl
  | cons b bs ih =>
    have h1 := conflictsOne_spec b busyBs (h b (by simp))
    have ih' := ih (fun b' hb' c hc => h b' (by simp [hb']) c hc)
    simp [findConflictsAux, h1, ih']

/-- Claim C5: for a parsed block list and busy model whose overlap tests all
parse, the conflict detector returns exactly one message per ordered pair of
a generated block and a busy block that overlap, formatted from the generated
block's fields, and the empty list when no pair overlaps.  (The embedding is
purely functional: the detector only reads its inputs.) -/
theorem find_conflicts_spec (blocks : List TimeBlock) (busy : BusyDict)
    (h : ∀ b ∈ blocks, ∀ c ∈ busyBlocks busy, (TimeBlock.overlaps b c).isSome) :
    findConflicts blocks busy =
      some (blocks.flatMap (fun b =>
        ((busyBlocks busy).filter (fun c => (TimeBlock.overlaps b c).getD false)).map
          (fun _ => conflictMsg b))) ∧
    ((∀ b ∈ blocks, ∀ c ∈ busyBlocks busy, TimeBlock.overlaps b c = some false) →
      findConflicts blocks busy = some []) := by
  have hmain := findConflictsAux_spec (busyBlocks busy) blocks h
  refine ⟨hmain, fun hno => ?_⟩
  rw [findConflicts, hmain]
  have : ∀ b ∈ blocks,
      ((busyBlocks busy).filter (fun c => (TimeBlock.overlaps b c).getD false)).map
        (fun _ => conflictMsg b) = [] := by
    intro b hb
    have hfil : (busyBlocks busy).filter (fun c => (TimeBlock.overlaps b c).getD false) = [] := by
      apply List.filter_eq_nil_iff.mpr
      intro c hc
      rw [hno b hb c hc]
      simp
    rw [hfil]
    rfl
  congr 1
  rw [List.flatMap_eq_nil_iff]
  exact this

/-- Witness for C5 on the spec's conflict example: busy Monday 09:00-10:00
against a generated Monday 09:30-10:30 block. -/
theorem find_conflicts_spec_witness :
    findConflicts [blkStudy] busyMon9 =
      some (([blkStudy]).flatMap (fun b =>
        ((busyBlocks busyMon9).filter (fun c => (TimeBlock.overlaps b c).getD false)).map
          (fun _ => conflictMsg b))) ∧
    ((∀ b ∈ [blkStudy], ∀ c ∈ busyBlocks busyMon9, TimeBlock.overlaps b c = some false) →
      findConflicts [blkStudy] busyMon9 = some []) :=
  find_conflicts_spec [blkStudy] busyMon9 (by decide)

/-- Counterexample to C5 as stated: under the busy model `busy23` (Monday
hour-23 slot) and the non-empty, non-overlapping block list `[blkStudy]`
(Monday 09:30-10:30), the detector does not return a message list at all —
it raises (modelled as `none`) instead of returning the empty list. -/
theorem find_conflicts_not_total :
    ("Monday", [(23, 1)]) ∈ busy23 ∧ findConflicts [blkStudy] busy23 = none := by decide

/-- If some overlap test raises, the inner conflict loop raises. -/
lemma conflictsOne_none (b : TimeBlock) (busyBs : List TimeBlock)
    (h : ∃ c ∈ busyBs, TimeBlock.overlaps b c = none) : conflictsOne b busyBs = none := by
  induction busyBs with
  | nil => simp at h
  | cons c cs ih =>
    obtain ⟨c', hc', hnone⟩ := h
    rcases List.mem_cons.mp hc' with rfl | hc'
    · simp [conflictsOne, hnone]
    · cases ho : TimeBlock.overlaps b c
      · simp [conflictsOne, ho]
      · simp [conflictsOne, ho, ih ⟨c', hc', hnone⟩]

/-- If some block's inner loop raises, the conflict detector raises. -/
lemma findConflictsAux_none (busyBs : List TimeBlock) (blocks : List TimeBlock)
    (h : ∃ b ∈ blocks, conflictsOne b busyBs = none) :
    findConflictsAux busyBs blocks = none := by
  induction blocks with
  | nil => simp at h
  | cons b bs ih =>
    obtain ⟨b', hb', hnone⟩ := h
    rcases List.mem_cons.mp hb' with rfl | hb'
    · simp [findConflictsAux, hnone]
    · cases ho : conflictsOne b busyBs
      · simp [findConflictsAux, ho]
      · simp [findConflictsAux, ho, ih ⟨b', hb', hnone⟩]

/-- `overlaps` raises when the days agree, the left block's times parse, and
the right block's end time does not parse. -/
lemma overlaps_none_of_bad_end (b c : TimeBlock) (hday : b.day = c.day)
    (hsa : (parseTime b.start_time).isSome) (hea : (parseTime b.end_time).isSome)
    (hsb : (parseTime c.start_time).isSome) (heb : parseTime c.end_time = none) :
    TimeBlock.overlaps b c = none := by
  obtain ⟨sa, hsa'⟩ := Option.isSome_iff_exists.mp hsa
  obtain ⟨ea, hea'⟩ := Option.isSome_iff_exists.mp hea
  obtain ⟨sb, hsb'⟩ := Option.isSome_iff_exists.mp hsb
  simp [TimeBlock.overlaps, hday, hsa', hea', hsb', heb]

/-- A stored hour-23 slot materializes as the busy block
`"Busy" d "23:00"-"24:00"`, whose end time cannot be parsed back. -/
lemma mem_busyBlocks_23 (busy : BusyDict) (d : String) (l : List (Nat × Nat))
    (hl : (d, l) ∈ busy) (h23 : (23, 1) ∈ l) :
    (⟨"Busy", d, "23:00", "24:00", ""⟩ : TimeBlock) ∈ busyBlocks busy := by
  unfold busyBlocks buildBusyContext
  rw [List.mem_flatMap]
  refine ⟨(d, l.map (fun q => ⟨fmt2 q.1 ++ ":00", fmt2 (q.1 + q.2) ++ ":00", "Busy"⟩)),
    List.mem_map_of_mem _ hl, ?_⟩
  rw [List.mem_map]
  refine ⟨⟨fmt2 23 ++ ":00", fmt2 (23 + 1) ++ ":00", "Busy"⟩,
    List.mem_map_of_mem _ h23, ?_⟩
  have h1 : fmt2 23 ++ ":00" = "23:00" := by decide
  have h2 : fmt2 (23 + 1) ++ ":00" = "24:00" := by decide
  rw [h1, h2]

/-- Claim C10 (amended): with an hour-23 busy slot on weekday `d` in the
model, conflict detection raises an unhandled parse error (the snapshot's
`"24:00"` end cannot be parsed as a time of day) whenever the generated list
contains a block on weekday `d` whose own times parse; it is only such
same-day blocks that trigger the error. -/
theorem hour23_conflict_error (busy : BusyDict) (blocks : List TimeBlock)
    (b : TimeBlock) (d : String) (l : List (Nat × Nat))
    (hb : b ∈ blocks) (hday : b.day = d)
    (hl : (d, l) ∈ busy) (h23 : (23, 1) ∈ l)
    (hs : (parseTime b.start_time).isSome) (he : (parseTime b.end_time).isSome) :
    findConflicts blocks busy = none := by
  rw [findConflicts]
  apply findConflictsAux_none
  refine ⟨b, hb, ?_⟩
  apply conflictsOne_none
  refine ⟨⟨"Busy", d, "23:00", "24:00", ""⟩, mem_busyBlocks_23 busy d l hl h23, ?_⟩
  exact overlaps_none_of_bad_end b _ hday hs he
    (show (parseTime "23:00").isSome from by decide)
    (show parseTime "24:00" = none from by decide)

/-- Counterexample to C10 as stated: `busy23` stores the Monday hour-23 slot,
yet the non-empty generated list `[blkTue]` (a Tuesday block) is processed
without error — `overlaps` returns `False` on differing weekdays before
parsing anything — and conflict detection returns the empty message list. -/
theorem hour23_not_all_raise :
    ("Monday", [(23, 1)]) ∈ busy23 ∧ findConflicts [blkTue] busy23 = some [] := by decide

/-- Witness for C10's amended claim: a Monday block with valid times makes
conflict detection raise under `busy23`. -/
theorem hour23_conflict_error_witness :
    findConflicts [blkA] busy23 = none :=
  hour23_conflict_error busy23 [blkA] blkA "Monday" [(23, 1)] (by decide) (by decide)
    (by decide) (by decide) (by decide) (by decide)

/-- A tick never removes identities from the `shown` set. -/
lemma tickOnce_shown_mono (c : Nat) (es : List (Nat × TimeBlock)) (shown : List Ident)
    (i : Ident) (hi : i ∈ shown) : i ∈ (tickOnce c es shown).1 := by
  induction es generalizing shown with
  | nil => exact hi
  | cons e rest ih =>
    obtain ⟨dt, b⟩ := e
    by_cases hc : dt ≤ c ∧ c < dt + 60 ∧ identOf b ∉ shown
    · simp only [tickOnce, if_pos hc]
      exact ih (identOf b :: shown) (List.mem_cons_of_mem _ hi)
    · simp only [tickOnce, if_neg hc]
      exact ih shown hi

/-- Every block delivered by a tick has an entry whose window contains the
tick time. -/
lemma tickOnce_delivered (c : Nat) (es : List (Nat × TimeBlock)) (shown : List Ident) :
    ∀ b ∈ (tickOnce c es shown).2, ∃ dt, (dt, b) ∈ es ∧ dt ≤ c ∧ c < dt + 60 := by
  induction es generalizing shown with
  | nil => simp [tickOnce]
  | cons e rest ih =>
    obtain ⟨dt0, b0⟩ := e
    by_cases hc : dt0 ≤ c ∧ c < dt0 + 60 ∧ identOf b0 ∉ shown
    · simp only [tickOnce, if_pos hc]
      intro b hb
      rcases List.mem_cons.mp hb with rfl | hb
      · exact ⟨dt0, List.mem_cons_self _ _, hc.1, hc.2.1⟩
      · obtain ⟨dt, hdt, h1, h2⟩ := ih (identOf b0 :: shown) b hb
        exact ⟨dt, List.mem_cons_of_mem _ hdt, h1, h2⟩
    · simp only [tickOnce, if_neg hc]
      intro b hb
      obtain ⟨dt, hdt, h1, h2⟩ := ih shown b hb
      exact ⟨dt, List.mem_cons_of_mem _ hdt, h1, h2⟩

/-- Within one tick: at most one delivery per identity; none at all for an
identity already shown; and a delivered identity ends up shown. -/
lemma tickOnce_count (c : Nat) (es : List (Nat × TimeBlock)) (shown : List Ident)
    (i : Ident) :
    (tickOnce c es shown).2.countP (fun x => identOf x == i) ≤ 1 ∧
    (i ∈ shown → (tickOnce c es shown).2.countP (fun x => identOf x == i) = 0) ∧
    (1 ≤ (tickOnce c es shown).2.countP (fun x => identOf x == i) →
      i ∈ (tickOnce c es shown).1) := by
  induction es generalizing shown with
  | nil => simp [tickOnce]
  | cons e rest ih =>
    obtain ⟨dt, b⟩ := e
    by_cases hc : dt ≤ c ∧ c < dt + 60 ∧ identOf b ∉ shown
    · simp only [tickOnce, if_pos hc, List.countP_cons]
      by_cases hib : (identOf b == i) = true
      · have hib' : identOf b = i := by simpa using hib
        have hmem : i ∈ identOf b :: shown := by
          rw [← hib']
          exact List.mem_cons_self _ _
        have h0 : (tickOnce c rest (identOf b :: shown)).2.countP
            (fun x => identOf x == i) = 0 := (ih (identOf b :: shown)).2.1 hmem
        refine ⟨by simp [h0, hib], fun hish => ?_, fun _ => ?_⟩
        · exact absurd (hib' ▸ hish) hc.2.2
        · exact tickOnce_shown_mono c rest (identOf b :: shown) i hmem
      · have hib' : (identOf b == i) = false := by
          simp only [Bool.not_eq_true] at hib
          exact hib
        obtain ⟨ha, hb', hcc⟩ := ih (identOf b :: shown)
        refine ⟨by simpa [hib'] using ha, fun hish => ?_, fun hone => ?_⟩
        · simpa [hib'] using hb' (List.mem_cons_of_mem _ hish)
        · exact hcc (by simpa [hib'] using hone)
    · simp only [tickOnce, if_neg hc]
      exact ih shown

/-- A run never removes identities from the `shown` set. -/
lemma runTicks_shown_mono (ticks : List Nat) (es : List (Nat × TimeBlock))
    (shown : List Ident) (i : Ident) (hi : i ∈ shown) :
    i ∈ (runTicks ticks es shown).1 := by
  induction ticks generalizing shown with
  | nil => exact hi
  | cons t ts ih =>
    simp only [runTicks]
    exact ih (tickOnce t es shown).1 (tickOnce_shown_mono t es shown i hi)

/-- Across a whole run: at most one delivery per identity, and none for an
identity already shown at loop entry. -/
lemma runTicks_count (ticks : List Nat) (es : List (Nat × TimeBlock))
    (shown : List Ident) (i : Ident) :
    (runTicks ticks es shown).2.countP (fun x => identOf x == i) ≤ 1 ∧
    (i ∈ shown → (runTicks ticks es shown).2.countP (fun x => identOf x == i) = 0) := by
  induction ticks generalizing shown with
  | nil => simp [runTicks]
  | cons t ts ih =>
    simp only [runTicks, List.countP_append]
    obtain ⟨h1le, h1zero, h1shown⟩ := tickOnce_count t es shown i
    obtain ⟨h2le, h2zero⟩ := ih (tickOnce t es shown).1
    constructor
    · cases hz : (tickOnce t es shown).2.countP (fun x => identOf x == i) with
      | zero => simpa [hz] using h2le
      | succ n =>
        have hn : n = 0 := by omega
        have hish : i ∈ (tickOnce t es shown).1 := h1shown (by omega)
        have hz2 := h2zero hish
        omega
    · intro hish
      have hz1 := h1zero hish
      have hz2 := h2zero (tickOnce_shown_mono t es shown i hish)
      omega

/-- Every block delivered during a run was delivered at some tick lying in
the window of one of its entries. -/
lemma runTicks_delivered (ticks : List Nat) (es : List (Nat × TimeBlock))
    (shown : List Ident) :
    ∀ b ∈ (runTicks ticks es shown).2,
      ∃ t ∈ ticks, ∃ dt, (dt, b) ∈ es ∧ dt ≤ t ∧ t < dt + 60 := by
  induction ticks generalizing shown with
  | nil => simp [runTicks]
  | cons t ts ih =>
    simp only [runTicks]
    intro b hb
    rcases List.mem_append.mp hb with hb' | hb'
    · obtain ⟨dt, hdt, hw1, hw2⟩ := tickOnce_delivered t es shown b hb'
      exact ⟨t, List.mem_cons_self _ _, dt, hdt, hw1, hw2⟩
    · obtain ⟨t', ht', rest⟩ := ih (tickOnce t es shown).1 b hb'
      exact ⟨t', List.mem_cons_of_mem _ ht', rest⟩

/-- Claim C7: within a single reminder run, each identity
`(weekday, start, title)` is delivered at most once; a delivery happens only
at a tick lying in the entry's `[fire, fire + 1 minute)` window; and an
identity already marked as shown never fires on any later tick of the run. -/
theorem reminder_dedup (ticks : List Nat) (entries : List (Nat × TimeBlock))
    (shown : List Ident) (i : Ident) (b : TimeBlock)
    (hi : i ∈ shown) (hb : b ∈ (runTicks ticks entries []).2) :
    (runTicks ticks entries []).2.countP (fun x => identOf x == identOf b) ≤ 1 ∧
    (∃ t ∈ ticks, ∃ dt, (dt, b) ∈ entries ∧ dt ≤ t ∧ t < dt + 60) ∧
    (runTicks ticks entries shown).2.countP (fun x => identOf x == i) = 0 :=
  ⟨(runTicks_count ticks entries [] (identOf b)).1,
   runTicks_delivered ticks entries [] b hb,
   (runTicks_count ticks entries shown i).2 hi⟩

/-- Witness for C7: one entry, two ticks both inside its window — the block
fires exactly once, and the pre-marked identity `identX` never fires. -/
theorem reminder_dedup_witness :
    (runTicks [1000, 1030] [(1000, blkA)] []).2.countP
      (fun x => identOf x == identOf blkA) ≤ 1 ∧
    (∃ t ∈ [1000, 1030], ∃ dt, (dt, blkA) ∈ [(1000, blkA)] ∧ dt ≤ t ∧ t < dt + 60) ∧
    (runTicks [1000, 1030] [(1000, blkA)] [identX]).2.countP
      (fun x => identOf x == identX) = 0 :=
  reminder_dedup [1000, 1030] [(1000, blkA)] [identX] identX blkA (by decide) (by decide)

end TaskManager
